import Mathlib

/-!
waypoint: `PartitionViewer.Short` and `funcToSpec`.

A shallow embedding of `sdk/component/logs.go` and `sdk/internal/plugin/spec.go`.

* Go strings are byte sequences (`GoString`), `len` is the number of bytes.
* A Go `map[string]string` is an association list with at most one entry per key;
  the nil map is `none`.
* A call that can end in a run-time panic yields an `Outcome`.
-/

set_option autoImplicit false

/-- A Go string: an immutable sequence of bytes. -/
abbrev GoString := List UInt8

/-- The bytes of a string literal (its UTF-8 encoding, as in Go source text). -/
def bytes (s : String) : GoString := s.data.flatMap String.utf8EncodeChar

/-- How a Go call ends. `stalled` is only an artefact of a model that counts loop
iterations: the theorems show that it never happens. -/
inductive Outcome (α : Type) where
  | returned (a : α)
  | panicked
  | stalled
  deriving DecidableEq, Repr

/-! ## golang.org/x/crypto/blake2b (RFC 7693), unkeyed, 64-byte digest -/

namespace blake2b

/-- The digest size in bytes of BLAKE2b-512. -/
def Size : Nat := 64

def iv : List Nat :=
  [0x6a09e667f3bcc908, 0xbb67ae8584caa73b, 0x3c6ef372fe94f82b, 0xa54ff53a5f1d36f1,
   0x510e527fade682d1, 0x9b05688c2b3e6c1f, 0x1f83d9abfb41bd6b, 0x5be0cd19137e2179]

def precomputed : List (List Nat) :=
  [[0, 1, 2, 3, 4, 5, 6, 7, 8, 9, 10, 11, 12, 13, 14, 15],
   [14, 10, 4, 8, 9, 15, 13, 6, 1, 12, 0, 2, 11, 7, 5, 3],
   [11, 8, 12, 0, 5, 2, 15, 13, 10, 14, 3, 6, 7, 1, 9, 4],
   [7, 9, 3, 1, 13, 12, 11, 14, 2, 6, 5, 10, 4, 0, 15, 8],
   [9, 0, 5, 7, 2, 4, 10, 15, 14, 1, 11, 12, 6, 8, 3, 13],
   [2, 12, 6, 10, 0, 11, 8, 3, 4, 13, 7, 5, 15, 14, 1, 9],
   [12, 5, 1, 15, 14, 13, 4, 10, 0, 7, 6, 3, 9, 2, 8, 11],
   [13, 11, 7, 14, 12, 1, 3, 9, 5, 0, 15, 4, 8, 6, 2, 10],
   [6, 15, 14, 9, 11, 3, 0, 8, 12, 2, 13, 7, 1, 4, 10, 5],
   [10, 2, 8, 4, 7, 6, 1, 5, 15, 11, 9, 14, 3, 12, 13, 0]]

/-- Rotation to the right of a 64-bit word. -/
def rotr64 (x n : Nat) : Nat := ((x >>> n) ||| (x <<< (64 - n))) % 2 ^ 64

/-- The mixing function G on the sixteen-word work vector. -/
def mix (v : List Nat) (a b c d x y : Nat) : List Nat :=
  let va := (v.getD a 0 + v.getD b 0 + x) % 2 ^ 64
  let vd := rotr64 (v.getD d 0 ^^^ va) 32
  let vc := (v.getD c 0 + vd) % 2 ^ 64
  let vb := rotr64 (v.getD b 0 ^^^ vc) 24
  let va := (va + vb + y) % 2 ^ 64
  let vd := rotr64 (vd ^^^ va) 16
  let vc := (vc + vd) % 2 ^ 64
  let vb := rotr64 (vb ^^^ vc) 63
  (((v.set a va).set b vb).set c vc).set d vd

/-- One of the twelve rounds over the message words `m`. -/
def round (m : List Nat) (v : List Nat) (r : Nat) : List Nat :=
  let s := precomputed.getD (r % 10) []
  let w (i : Nat) : Nat := m.getD (s.getD i 0) 0
  let v := mix v 0 4 8 12 (w 0) (w 1)
  let v := mix v 1 5 9 13 (w 2) (w 3)
  let v := mix v 2 6 10 14 (w 4) (w 5)
  let v := mix v 3 7 11 15 (w 6) (w 7)
  let v := mix v 0 5 10 15 (w 8) (w 9)
  let v := mix v 1 6 11 12 (w 10) (w 11)
  let v := mix v 2 7 8 13 (w 12) (w 13)
  mix v 3 4 9 14 (w 14) (w 15)

/-- The compression function: chain value `h`, message words `m`, byte counter `t`,
final-block flag `f`. -/
def compress (h m : List Nat) (t : Nat) (f : Bool) : List Nat :=
  let v := h ++ iv
  let v := v.set 12 (v.getD 12 0 ^^^ (t % 2 ^ 64))
  let v := v.set 13 (v.getD 13 0 ^^^ ((t >>> 64) % 2 ^ 64))
  let v := if f then v.set 14 (v.getD 14 0 ^^^ (2 ^ 64 - 1)) else v
  let v := (List.range 12).foldl (round m) v
  (List.range 8).map (fun i => h.getD i 0 ^^^ v.getD i 0 ^^^ v.getD (i + 8) 0)

/-- A little-endian word from (at most eight) bytes. -/
def le64 (bs : List UInt8) : Nat :=
  bs.foldr (fun b acc => b.toNat + 256 * acc) 0

/-- The sixteen message words of a block; a short block counts as zero-padded. -/
def words (block : List UInt8) : List Nat :=
  (List.range 16).map (fun i => le64 ((block.drop (8 * i)).take 8))

/-- All blocks of the input in turn; the last one (at most 128 bytes, possibly
empty) is compressed with the final flag set. -/
def blocks : Nat → List Nat → Nat → List UInt8 → List Nat
  | 0, h, _, _ => h
  | fuel + 1, h, t, d =>
    if d.length ≤ 128 then compress h (words d) (t + d.length) true
    else blocks fuel (compress h (words (d.take 128)) (t + 128) false) (t + 128) (d.drop 128)

/-- The digest `h.Sum(nil)` after `h, _ := New(Size, nil); h.Write(d)`. -/
def Sum512 (d : List UInt8) : List UInt8 :=
  let h := iv.set 0 (iv.getD 0 0 ^^^ 0x01010040)
  let h := blocks (d.length + 1) h 0 d
  (List.range Size).map (fun i => UInt8.ofNat ((h.getD (i / 8) 0 >>> (8 * (i % 8))) % 256))

end blake2b

/-! ## encoding/base32 (RFC 4648) -/

namespace base32

/-- An encoding: its 32-character alphabet and its padding character. -/
structure Encoding where
  encode : List UInt8
  padChar : UInt8

/-- The standard padding character `=`. -/
def StdPadding : UInt8 := 61

/-- `base32.NewEncoding(encoder)`: the padded encoding over the given alphabet. -/
def NewEncoding (encoder : GoString) : Encoding := ⟨encoder, StdPadding⟩

/-- One quantum: 1 to 5 source bytes give 8 characters, of which the first
`⌈8 * len / 5⌉` are alphabet characters and the others padding. -/
def Encoding.quantum (enc : Encoding) (src : List UInt8) : List UInt8 :=
  let n := (src ++ List.replicate (5 - src.length) 0).foldl (fun (acc : Nat) (b : UInt8) => acc * 256 + b.toNat) 0
  let digits := (8 * src.length + 4) / 5
  (List.range 8).map (fun i =>
    if i < digits then enc.encode.getD ((n >>> (35 - 5 * i)) % 32) enc.padChar else enc.padChar)

/-- `enc.EncodeToString(src)`. -/
def Encoding.EncodeToString (enc : Encoding) : List UInt8 → GoString
  | [] => []
  | a :: b :: c :: d :: e :: rest => enc.quantum [a, b, c, d, e] ++ enc.EncodeToString rest
  | a :: rest => enc.quantum (a :: rest)

end base32

/-! ## sdk/component/logs.go -/

namespace component

/-- Lookup `m[key]` in a Go map: `some v` when the key is present. -/
def mapGet : List (GoString × GoString) → GoString → Option GoString
  | [], _ => none
  | (k, v) :: m, key => if key = k then some v else mapGet m key

/-- Assignment `m[key] = val` in a Go map. -/
def mapSet (m : List (GoString × GoString)) (key val : GoString) : List (GoString × GoString) :=
  (key, val) :: m.filter (fun e => e.1 ≠ key)

/-- `type PartitionViewer struct { shortened map[string]string }`; `none` is the nil map. -/
structure PartitionViewer where
  shortened : Option (List (GoString × GoString))
  deriving DecidableEq, Repr

/-- `var encoding = base32.NewEncoding("abcdefghijklmnopqrstuvwxyz234567")`. -/
def encoding : base32.Encoding := base32.NewEncoding (bytes "abcdefghijklmnopqrstuvwxyz234567")

/-- The `for` loop of `Short` (lines 49-57) over the map `shortened`, entered with
`length`; `fuel` bounds the number of iterations of the model. The slice
`str[:length]` panics when `length` exceeds `len(str)`. -/
def shortLoop (shortened : List (GoString × GoString)) (part str : GoString) :
    Nat → Nat → Outcome (GoString × PartitionViewer)
  | 0, _ => .stalled
  | fuel + 1, length =>
    if str.length < length then .panicked
    else
      let short := str.take length
      match mapGet shortened short with
      | some _ => shortLoop shortened part str fuel (length + 1)
      | none => .returned (short, ⟨some (mapSet shortened part short)⟩)

/-- `func (pv *PartitionViewer) Short(part string) string`: the returned string and
the viewer after the call. -/
def Short (pv : PartitionViewer) (part : GoString) : Outcome (GoString × PartitionViewer) :=
  if part.length < 10 then .returned (part, pv)
  else
    let shortened := match pv.shortened with
      | none => []
      | some m => m
    match mapGet shortened part with
    | some short => .returned (short, ⟨some shortened⟩)
    | none =>
      let str := encoding.EncodeToString (blake2b.Sum512 part)
      shortLoop shortened part str (str.length + 1) 7

/-- A sequence of `Short` calls on one viewer, in order: the strings returned and
the viewer at the end. A panic ends the run. -/
def shortAll : PartitionViewer → List GoString → Outcome (List GoString × PartitionViewer)
  | pv, [] => .returned ([], pv)
  | pv, part :: rest =>
    match Short pv part with
    | .returned (s, pv1) =>
      match shortAll pv1 rest with
      | .returned (ss, pv2) => .returned (s :: ss, pv2)
      | .panicked => .panicked
      | .stalled => .stalled
    | .panicked => .panicked
    | .stalled => .stalled

/-- The entry `pv.shortened[key]` of a viewer, `none` when there is none. -/
def PartitionViewer.get (pv : PartitionViewer) (key : GoString) : Option GoString :=
  match pv.shortened with
  | none => none
  | some m => mapGet m key

/-- The entries of the viewer's map (none for the nil map). -/
def PartitionViewer.entries (pv : PartitionViewer) : List (GoString × GoString) :=
  match pv.shortened with
  | none => []
  | some m => m

/-- The first 7 characters of the encoded digest of a name: `str[:7]` of `Short`. -/
def digestPrefix (part : GoString) : GoString :=
  (encoding.EncodeToString (blake2b.Sum512 part)).take 7

/-- The string `Short` tries first for a name: the name itself below the threshold,
the first 7 characters of its encoded digest otherwise. -/
def candidate (part : GoString) : GoString :=
  if part.length < 10 then part else digestPrefix part

/-- A character of the lower-case base-32 alphabet: `a`-`z` or `2`-`7`. -/
def isLowerBase32 (c : UInt8) : Bool :=
  (97 ≤ c.toNat && c.toNat ≤ 122) || (50 ≤ c.toNat && c.toNat ≤ 55)

/-- What a returned string is tied to: the name itself below the threshold, the
entry of the map otherwise. -/
def Settled (pv : PartitionViewer) (part s : GoString) : Prop :=
  (part.length < 10 ∧ s = part) ∨ (10 ≤ part.length ∧ pv.get part = some s)

/-- Every key of the map is at least 10 bytes long and carries the first 7
characters of its own encoded digest. -/
def Inv (pv : PartitionViewer) : Prop :=
  ∀ e ∈ pv.entries, 10 ≤ e.1.length ∧ e.2 = digestPrefix e.1

/-- The viewers a program can reach from a fresh `PartitionViewer{}` by calls of `Short`. -/
inductive Reachable : PartitionViewer → Prop where
  | fresh : Reachable ⟨none⟩
  | step {pv pv1 : PartitionViewer} {part s : GoString} :
      Reachable pv → Short pv part = .returned (s, pv1) → Reachable pv1

end component

/-! ## sdk/internal/plugin/spec.go -/

namespace plugin

/-- A `reflect.Type`, as far as `spec.go` tells types apart: the interface
`context.Context`; the interface `proto.Message` itself; another interface type whose
method set includes that of `proto.Message` (one that embeds it); a type that is no
interface and implements `proto.Message` (a message type, with the name under which
its messages are registered); or any other Go type. -/
inductive RType where
  | context
  | protoMessage
  | messageInterface (id : Nat)
  | message (name : String)
  | native (id : Nat)
  deriving DecidableEq, Repr

/-- `contextType = reflect.TypeOf((*context.Context)(nil)).Elem()`. -/
def contextType : RType := .context

/-- `protoMessageType = reflect.TypeOf((*proto.Message)(nil)).Elem()`. -/
def protoMessageType : RType := .protoMessage

/-- `typ.Implements(u)` for the two interface types `spec.go` asks about: an interface
type implements itself; a message type and an interface that embeds `proto.Message`
implement `proto.Message`. -/
def RType.Implements (typ u : RType) : Bool :=
  match u, typ with
  | .protoMessage, .protoMessage => true
  | .protoMessage, .messageInterface _ => true
  | .protoMessage, .message _ => true
  | .context, .context => true
  | _, _ => false

/-- Modelled from the spec: the interface `mapper.Type` (the TypeDescriptor of the data
model), declared in package `mapper`, which is not part of the sources at hand. A value
is a `*mapper.ReflectType` around a `reflect.Type`, or some other implementation. -/
inductive MType where
  | reflect (typ : RType)
  | other (id : Nat)
  deriving DecidableEq, Repr

/-- Modelled from the spec: the struct `mapper.Func` (a function or a Converter of the
data model) with the fields `spec.go` reads, `Name` and `Out`, and its parameter
types. -/
structure Func where
  Name : String
  Args : List MType
  Out : MType
  deriving DecidableEq, Repr

/-- Modelled from the spec: a resolved chain of package `mapper` (ResolvedChain of the
data model): the converters in order and the terminal type reached, `chain.Out()`. -/
structure Chain where
  funcs : List Func
  Out : MType
  deriving DecidableEq, Repr

/-- Modelled from the spec: what `funcToSpec` calls in package `mapper`, which is not
part of the sources at hand. `NewFunc` yields the `*mapper.Func` or an error;
`ChainInputSet` the list of suppliable types; `ChainTarget` a chain or nil, from the
check function and the pool alone, as `spec.go` calls it; `String` is the text that
the verb `%s` prints for a `*mapper.Func`. -/
structure Mapper (Fn : Type) where
  NewFunc : Fn → Except String Func
  ChainInputSet : Func → List Func → (MType → Bool) → List MType
  ChainTarget : (MType → Bool) → List Func → Option Chain
  String : Func → String

/-- `pb.FuncSpec`. -/
structure FuncSpec where
  Name : String
  Args : List String
  Result : String
  deriving DecidableEq, Repr

/-- `checkProtoMessage`: true if the type is `proto.Message` or implements it. -/
def checkProtoMessage (t : MType) : Bool :=
  match t with
  | .other _ => false
  | .reflect typ => typ == protoMessageType || typ.Implements protoMessageType

/-- The check function that `funcToSpec` hands to `ChainInputSet` (lines 36-46):
protobuf messages or the context. -/
def inputCheck (t : MType) : Bool :=
  match t with
  | .other _ => false
  | .reflect typ =>
    typ == protoMessageType || typ.Implements protoMessageType || typ == contextType

/-- `typeToMessage`: `proto.MessageName(reflect.Zero(typ).Interface().(proto.Message))`
for `typ := t.(*mapper.ReflectType).Type`; `none` is a run-time panic of one of the two
type assertions. The zero value of a message type is a message; the zero value of an
interface type, `proto.Message` and the interfaces that embed it included, is the nil
interface, and that of another type is no message: the assertion to `proto.Message`
fails on both. -/
def typeToMessage (t : MType) : Option String :=
  match t with
  | .other _ => none
  | .reflect (.message name) => some name
  | .reflect _ => none

/-- The loop over the suppliable types (lines 58-68), appending to `result.Args`;
`none` is a run-time panic. -/
def argsLoop : List MType → List String → Option (List String)
  | [], args => some args
  | .other _ :: _, _ => none
  | .reflect typ :: rest, args =>
    if typ = contextType then argsLoop rest args
    else
      match typeToMessage (.reflect typ) with
      | none => none
      | some name => argsLoop rest (args ++ [name])

/-- `funcToSpec(log, f, mappers)`: the pair `(*pb.FuncSpec, error)` it returns, `none`
for nil. The logger plays no part in the result. -/
def funcToSpec {Fn : Type} (api : Mapper Fn) (f : Fn) (mappers : List Func) :
    Outcome (Option FuncSpec × Option String) :=
  match api.NewFunc f with
  | .error err => .returned (none, some err)
  | .ok mf =>
    let types := api.ChainInputSet mf mappers inputCheck
    if types.length = 0 then
      .returned (none, some ("cannot satisfy the function " ++ api.String mf ++
        ". The function takes arguments that " ++
        "are not proto.Messages or have no mappers to convert to proto.Messages"))
    else
      match argsLoop types [] with
      | none => .panicked
      | some args =>
        if !checkProtoMessage mf.Out then
          match api.ChainTarget checkProtoMessage mappers with
          | none =>
            .returned (none, some ("function must output a type that is a proto.Message or has " ++
              "a chain of mappers that result in a proto.Message"))
          | some chain =>
            match typeToMessage chain.Out with
            | none => .panicked
            | some r => .returned (some ⟨mf.Name, args, r⟩, none)
        else
          match typeToMessage mf.Out with
          | none => .panicked
          | some r => .returned (some ⟨mf.Name, args, r⟩, none)

/-- Modelled from the spec: the backward search of the Converter Chain Resolver (4.1)
for one target type, breadth first and in pool order: from the frontier back through
the converters whose output is a frontier type, until a type satisfying `acceptable`
is met or nothing is left. -/
def resolveInput (pool : List Func) (acceptable : MType → Bool) :
    Nat → List MType → Option MType
  | 0, _ => none
  | fuel + 1, frontier =>
    match frontier.find? acceptable with
    | some t => some t
    | none =>
      resolveInput pool acceptable fuel
        (frontier.flatMap (fun t => (pool.filter (fun c => c.Out = t)).flatMap (fun c => c.Args)))

/-- Modelled from the spec: the search for every target type; it fails as a whole
when one target type reaches no acceptable type. -/
def resolveAll (pool : List Func) (acceptable : MType → Bool) :
    List MType → Option (List MType)
  | [] => some []
  | t :: ts =>
    match resolveInput pool acceptable (pool.length + 1) [t], resolveAll pool acceptable ts with
    | some r, some rs => some (r :: rs)
    | _, _ => none

/-- Modelled from the spec: `(*mapper.Func).ChainInputSet` (4.1, 4.2): the suppliable
type reached for each parameter type, in parameter order; empty when resolution
fails. -/
def ChainInputSet (mf : Func) (mappers : List Func) (check : MType → Bool) : List MType :=
  match resolveAll mappers check mf.Args with
  | some ts => ts
  | none => []

/-- Modelled from the spec: package `mapper` with the resolver of section 4.1; a
function is given by its signature, a `*mapper.Func` prints as its name, and
`ChainTarget`, whose call in `spec.go` the spec does not cover, is left open. -/
def specMapper (chainTarget : (MType → Bool) → List Func → Option Chain) : Mapper Func where
  NewFunc := fun f => .ok f
  ChainInputSet := ChainInputSet
  ChainTarget := chainTarget
  String := fun mf => mf.Name

end plugin

/-! ## Theorems: `PartitionViewer.Short` -/

namespace component

/-- BLAKE2b-512 of "abc", the test vector of RFC 7693, appendix A. -/
theorem Sum512_abc :
    blake2b.Sum512 (bytes "abc") =
      [0xba, 0x80, 0xa5, 0x3f, 0x98, 0x1c, 0x4d, 0x0d, 0x6a, 0x27, 0x97, 0xb6, 0x9f, 0x12, 0xf6, 0xe9,
       0x4c, 0x21, 0x2f, 0x14, 0x68, 0x5a, 0xc4, 0xb7, 0x4b, 0x12, 0xbb, 0x6f, 0xdb, 0xff, 0xa2, 0xd1,
       0x7d, 0x87, 0xc5, 0x39, 0x2a, 0xab, 0x79, 0x2d, 0xc2, 0x52, 0xd5, 0xde, 0x45, 0x33, 0xcc, 0x95,
       0x18, 0xd3, 0x8a, 0xa8, 0xdb, 0xf1, 0x92, 0x5a, 0xb9, 0x23, 0x86, 0xed, 0xd4, 0x00, 0x99, 0x23] := by
  decide!

/-- The base-32 test vectors of RFC 4648, section 10, in the lower-case alphabet. -/
theorem EncodeToString_foobar :
    encoding.EncodeToString (bytes "") = bytes "" ∧
    encoding.EncodeToString (bytes "f") = bytes "my======" ∧
    encoding.EncodeToString (bytes "fo") = bytes "mzxq====" ∧
    encoding.EncodeToString (bytes "foo") = bytes "mzxw6===" ∧
    encoding.EncodeToString (bytes "foob") = bytes "mzxw6yq=" ∧
    encoding.EncodeToString (bytes "fooba") = bytes "mzxw6ytb" ∧
    encoding.EncodeToString (bytes "foobar") = bytes "mzxw6ytboi======" := by
  decide!

theorem Sum512_length (d : List UInt8) : (blake2b.Sum512 d).length = 64 := by
  simp [blake2b.Sum512, blake2b.Size]

/-! ### The map -/

theorem mapGet_mem {m : List (GoString × GoString)} {k v : GoString}
    (h : mapGet m k = some v) : (k, v) ∈ m := by
  induction m with
  | nil => simp [mapGet] at h
  | cons e m ih =>
    obtain ⟨k1, v1⟩ := e
    simp only [mapGet] at h
    split at h
    · next hk =>
      simp only [Option.some.injEq] at h
      subst hk
      subst h
      exact List.mem_cons_self _ _
    · exact List.mem_cons_of_mem _ (ih h)

theorem mapGet_filter_ne (m : List (GoString × GoString)) {key k : GoString} (h : key ≠ k) :
    mapGet (m.filter (fun e => e.1 ≠ k)) key = mapGet m key := by
  induction m with
  | nil => rfl
  | cons e m ih =>
    obtain ⟨k1, v1⟩ := e
    by_cases hk : k1 = k
    · subst hk
      rw [List.filter_cons_of_neg (by simp)]
      simp only [mapGet, h, if_false]
      exact ih
    · rw [List.filter_cons_of_pos (by simp [hk])]
      simp only [mapGet]
      rw [ih]

theorem mapGet_mapSet_self (m : List (GoString × GoString)) (k v : GoString) :
    mapGet (mapSet m k v) k = some v := by
  simp [mapSet, mapGet]

theorem mapGet_mapSet_ne (m : List (GoString × GoString)) {key k : GoString} (v : GoString)
    (h : key ≠ k) : mapGet (mapSet m k v) key = mapGet m key := by
  simp only [mapSet, mapGet, h, if_false]
  exact mapGet_filter_ne m h

theorem mem_mapSet {m : List (GoString × GoString)} {k v : GoString} {e : GoString × GoString}
    (h : e ∈ mapSet m k v) : e = (k, v) ∨ e ∈ m := by
  simp only [mapSet, List.mem_cons, List.mem_filter] at h
  rcases h with h | h
  · exact Or.inl h
  · exact Or.inr h.1

/-! ### The encoded digest -/

theorem quantum_length (enc : base32.Encoding) (src : List UInt8) :
    (enc.quantum src).length = 8 := by
  simp [base32.Encoding.quantum]

theorem encode_lowerBase32 :
    ∀ j, j < 32 → isLowerBase32 (encoding.encode.getD j encoding.padChar) = true := by
  decide!

theorem quantum_five_lowerBase32 (a b c d e : UInt8) :
    ∀ x ∈ encoding.quantum [a, b, c, d, e], isLowerBase32 x = true := by
  intro x hx
  simp only [base32.Encoding.quantum, List.mem_map, List.mem_range] at hx
  obtain ⟨i, hi, rfl⟩ := hx
  have h8 : (8 * [a, b, c, d, e].length + 4) / 5 = 8 := by simp
  rw [h8, if_pos hi]
  exact encode_lowerBase32 _ (Nat.mod_lt _ (by decide))

theorem digestPrefix_spec (part : GoString) :
    (digestPrefix part).length = 7 ∧ ∀ x ∈ digestPrefix part, isLowerBase32 x = true := by
  have hlen := Sum512_length part
  unfold digestPrefix
  match hd : blake2b.Sum512 part, hlen with
  | a :: b :: c :: d :: e :: rest, _ =>
    have hq := quantum_length encoding [a, b, c, d, e]
    have happ : encoding.EncodeToString (a :: b :: c :: d :: e :: rest)
        = encoding.quantum [a, b, c, d, e] ++ encoding.EncodeToString rest := by
      simp [base32.Encoding.EncodeToString]
    rw [happ, List.take_append_of_le_length (by omega)]
    refine ⟨by simp [List.length_take, hq], fun x hx => ?_⟩
    exact quantum_five_lowerBase32 a b c d e x (List.mem_of_mem_take hx)
  | [], h => simp at h
  | [_], h => simp at h
  | [_, _], h => simp at h
  | [_, _, _], h => simp at h
  | [_, _, _, _], h => simp at h

theorem digestPrefix_eq_take (part : GoString) :
    (encoding.EncodeToString (blake2b.Sum512 part)).take 7 = digestPrefix part := rfl

theorem encoded_length_ge (part : GoString) :
    7 ≤ (encoding.EncodeToString (blake2b.Sum512 part)).length := by
  have h := (digestPrefix_spec part).1
  unfold digestPrefix at h
  rw [List.length_take] at h
  omega

/-! ### One call of `Short` -/

theorem shortLoop_returned {m : List (GoString × GoString)} {part str : GoString} :
    ∀ (fuel length : Nat) {s : GoString} {pv1 : PartitionViewer},
      shortLoop m part str fuel length = .returned (s, pv1) →
      pv1 = ⟨some (mapSet m part s)⟩ := by
  intro fuel
  induction fuel with
  | zero =>
    intro length s pv1 h
    simp [shortLoop] at h
  | succ fuel ih =>
    intro length s pv1 h
    simp only [shortLoop] at h
    split at h
    · simp at h
    · split at h
      · exact ih _ h
      · simp only [Outcome.returned.injEq, Prod.mk.injEq] at h
        obtain ⟨rfl, rfl⟩ := h
        rfl

theorem shortLoop_not_stalled (m : List (GoString × GoString)) (part str : GoString) :
    ∀ (fuel length : Nat), 0 < fuel → str.length + 1 < fuel + length →
      shortLoop m part str fuel length ≠ .stalled := by
  intro fuel
  induction fuel with
  | zero =>
    intro length h0 _
    omega
  | succ fuel ih =>
    intro length _ h
    simp only [shortLoop]
    split
    · simp
    · split
      · exact ih (length + 1) (by omega) (by omega)
      · simp

/-- The iteration bound of the model is never met: a call of `Short` returns or
panics. -/
theorem Short_not_stalled (pv : PartitionViewer) (part : GoString) :
    Short pv part ≠ .stalled := by
  unfold Short
  split
  · simp
  · simp only
    split
    · simp
    · exact shortLoop_not_stalled _ _ _ _ _ (by omega) (by omega)

/-- The three ways in which a call of `Short` returns: the name is below the
threshold, the name is in the map already, or the loop assigned a new entry. -/
theorem Short_returned {pv pv1 : PartitionViewer} {part s : GoString}
    (h : Short pv part = .returned (s, pv1)) :
    (part.length < 10 ∧ s = part ∧ pv1 = pv) ∨
    (10 ≤ part.length ∧ mapGet pv.entries part = some s ∧ pv1 = ⟨some pv.entries⟩) ∨
    (10 ≤ part.length ∧ mapGet pv.entries part = none ∧
      pv1 = ⟨some (mapSet pv.entries part s)⟩) := by
  unfold Short at h
  split at h
  · next hlt =>
    simp only [Outcome.returned.injEq, Prod.mk.injEq] at h
    exact Or.inl ⟨hlt, h.1.symm, h.2.symm⟩
  · next hge =>
    have hge : 10 ≤ part.length := Nat.le_of_not_lt hge
    change (match mapGet pv.entries part with
      | some short => Outcome.returned (short, (⟨some pv.entries⟩ : PartitionViewer))
      | none => shortLoop pv.entries part (encoding.EncodeToString (blake2b.Sum512 part))
          ((encoding.EncodeToString (blake2b.Sum512 part)).length + 1) 7) = _ at h
    split at h
    · next short hget =>
      simp only [Outcome.returned.injEq, Prod.mk.injEq] at h
      obtain ⟨rfl, rfl⟩ := h
      exact Or.inr (Or.inl ⟨hge, hget, rfl⟩)
    · next hget =>
      exact Or.inr (Or.inr ⟨hge, hget, shortLoop_returned _ _ h⟩)

theorem get_eq_mapGet_entries (pv : PartitionViewer) (k : GoString) :
    pv.get k = mapGet pv.entries k := by
  unfold PartitionViewer.get PartitionViewer.entries
  cases pv.shortened <;> rfl

/-- A call of `Short` that returns keeps every entry the map had. -/
theorem Short_keeps {pv pv1 : PartitionViewer} {part s : GoString}
    (h : Short pv part = .returned (s, pv1)) (k v : GoString) (hk : pv.get k = some v) :
    pv1.get k = some v := by
  rw [get_eq_mapGet_entries] at hk
  rcases Short_returned h with ⟨_, _, rfl⟩ | ⟨_, _, rfl⟩ | ⟨_, hnone, rfl⟩
  · rw [get_eq_mapGet_entries]; exact hk
  · exact hk
  · have hne : k ≠ part := by
      rintro rfl
      rw [hnone] at hk
      exact Option.noConfusion hk
    show mapGet (mapSet pv.entries part s) k = some v
    rw [mapGet_mapSet_ne _ _ hne]
    exact hk

theorem Short_settles {pv pv1 : PartitionViewer} {part s : GoString}
    (h : Short pv part = .returned (s, pv1)) : Settled pv1 part s := by
  rcases Short_returned h with ⟨hlt, hs, _⟩ | ⟨hge, hget, rfl⟩ | ⟨hge, _, rfl⟩
  · exact Or.inl ⟨hlt, hs⟩
  · exact Or.inr ⟨hge, hget⟩
  · exact Or.inr ⟨hge, mapGet_mapSet_self _ _ _⟩

theorem Settled_step {pv pv1 : PartitionViewer} {part s q t : GoString}
    (hs : Settled pv part s) (h : Short pv q = .returned (t, pv1)) : Settled pv1 part s := by
  rcases hs with hs | ⟨hge, hget⟩
  · exact Or.inl hs
  · exact Or.inr ⟨hge, Short_keeps h _ _ hget⟩

theorem Settled_answer {pv pv1 : PartitionViewer} {part s t : GoString}
    (hs : Settled pv part s) (h : Short pv part = .returned (t, pv1)) : t = s := by
  rcases hs with ⟨hlt, hs⟩ | ⟨hge, hget⟩
  · rcases Short_returned h with ⟨_, ht, _⟩ | ⟨hge, _, _⟩ | ⟨hge, _, _⟩
    · rw [ht, hs]
    · omega
    · omega
  · rw [get_eq_mapGet_entries] at hget
    rcases Short_returned h with ⟨hlt, _, _⟩ | ⟨_, hget1, _⟩ | ⟨_, hnone, _⟩
    · omega
    · rw [hget] at hget1
      exact (Option.some.inj hget1).symm
    · rw [hget] at hnone
      exact Option.noConfusion hnone

/-! ### Sequences of calls -/

theorem shortAll_cons_returned {pv pv2 : PartitionViewer} {part : GoString}
    {rest rs : List GoString} (h : shortAll pv (part :: rest) = .returned (rs, pv2)) :
    ∃ s pv1 ss, Short pv part = .returned (s, pv1) ∧
      shortAll pv1 rest = .returned (ss, pv2) ∧ rs = s :: ss := by
  simp only [shortAll] at h
  split at h
  · next s pv1 h1 =>
    split at h
    · next ss pv3 h2 =>
      simp only [Outcome.returned.injEq, Prod.mk.injEq] at h
      obtain ⟨rfl, rfl⟩ := h
      exact ⟨s, pv1, ss, h1, h2, rfl⟩
    · simp at h
    · simp at h
  · simp at h
  · simp at h

theorem Settled_run {part s : GoString} :
    ∀ (rest : List GoString) {pv pv2 : PartitionViewer} {ss : List GoString},
      Settled pv part s → shortAll pv rest = .returned (ss, pv2) →
      ∀ j : Nat, rest[j]? = some part → ss[j]? = some s := by
  intro rest
  induction rest with
  | nil =>
    intro pv pv2 ss _ _ j hj
    simp at hj
  | cons q rest ih =>
    intro pv pv2 ss hs h j hj
    obtain ⟨t, pv1, ts, h1, h2, rfl⟩ := shortAll_cons_returned h
    cases j with
    | zero =>
      simp only [List.getElem?_cons_zero, Option.some.injEq] at hj
      subst hj
      simp only [List.getElem?_cons_zero, Option.some.injEq]
      exact Settled_answer hs h1
    | succ j =>
      simp only [List.getElem?_cons_succ] at hj ⊢
      exact ih (Settled_step hs h1) h2 j hj

theorem shortAll_stable :
    ∀ (parts : List GoString) {pv pv2 : PartitionViewer} {rs : List GoString},
      shortAll pv parts = .returned (rs, pv2) →
      rs.length = parts.length ∧
      (∀ (i j : Nat) (part : GoString), parts[i]? = some part → parts[j]? = some part →
        ∃ s : GoString, rs[i]? = some s ∧ rs[j]? = some s) ∧
      (∀ k v, pv.get k = some v → pv2.get k = some v) := by
  intro parts
  induction parts with
  | nil =>
    intro pv pv2 rs h
    simp only [shortAll, Outcome.returned.injEq, Prod.mk.injEq] at h
    obtain ⟨rfl, rfl⟩ := h
    refine ⟨rfl, ?_, fun k v hk => hk⟩
    intro i j part hi
    simp at hi
  | cons q rest ih =>
    intro pv pv2 rs h
    obtain ⟨t, pv1, ts, h1, h2, rfl⟩ := shortAll_cons_returned h
    obtain ⟨hlen, hsame, hkeep⟩ := ih h2
    refine ⟨by simp [hlen], ?_, fun k v hk => hkeep k v (Short_keeps h1 k v hk)⟩
    have hset := Short_settles h1
    intro i j part hi hj
    cases i with
    | zero =>
      simp only [List.getElem?_cons_zero, Option.some.injEq] at hi
      subst hi
      cases j with
      | zero => exact ⟨t, List.getElem?_cons_zero, List.getElem?_cons_zero⟩
      | succ j =>
        simp only [List.getElem?_cons_succ] at hj
        exact ⟨t, List.getElem?_cons_zero, by simpa using Settled_run rest hset h2 j hj⟩
    | succ i =>
      simp only [List.getElem?_cons_succ] at hi
      cases j with
      | zero =>
        simp only [List.getElem?_cons_zero, Option.some.injEq] at hj
        subst hj
        exact ⟨t, by simpa using Settled_run rest hset h2 i hi, List.getElem?_cons_zero⟩
      | succ j =>
        simp only [List.getElem?_cons_succ] at hj
        simpa using hsame i j part hi hj

/-! ### Reachable viewers -/

theorem mapGet_short_none {m : List (GoString × GoString)} (hm : ∀ e ∈ m, 10 ≤ e.1.length)
    (short : GoString) (hs : short.length < 10) : mapGet m short = none := by
  cases hget : mapGet m short with
  | none => rfl
  | some v =>
    have := hm _ (mapGet_mem hget)
    simp only at this
    omega

theorem shortLoop_first {m : List (GoString × GoString)} (hm : ∀ e ∈ m, 10 ≤ e.1.length)
    (part : GoString) (fuel : Nat) :
    shortLoop m part (encoding.EncodeToString (blake2b.Sum512 part)) (fuel + 1) 7
      = .returned (digestPrefix part, ⟨some (mapSet m part (digestPrefix part))⟩) := by
  have hlen := encoded_length_ge part
  have hnone : mapGet m (digestPrefix part) = none :=
    mapGet_short_none hm _ (by rw [(digestPrefix_spec part).1]; decide)
  simp only [shortLoop, Nat.not_lt.mpr hlen, if_false, digestPrefix_eq_take, hnone]

theorem Short_of_Inv {pv : PartitionViewer} (hinv : Inv pv) {part : GoString}
    (hge : 10 ≤ part.length) :
    ∃ pv1, Short pv part = .returned (digestPrefix part, pv1) ∧ Inv pv1 ∧
      (pv.get part = none →
        shortLoop pv.entries part (encoding.EncodeToString (blake2b.Sum512 part)) 1 7
          = .returned (digestPrefix part, pv1)) := by
  have hm : ∀ e ∈ pv.entries, 10 ≤ e.1.length := fun e he => (hinv e he).1
  have hS : Short pv part = (match mapGet pv.entries part with
      | some short => Outcome.returned (short, (⟨some pv.entries⟩ : PartitionViewer))
      | none => shortLoop pv.entries part (encoding.EncodeToString (blake2b.Sum512 part))
          ((encoding.EncodeToString (blake2b.Sum512 part)).length + 1) 7) := by
    unfold Short
    rw [if_neg (Nat.not_lt.mpr hge)]
    rfl
  rw [hS, get_eq_mapGet_entries]
  cases hget : mapGet pv.entries part with
  | some short =>
    have hshort : short = digestPrefix part := (hinv _ (mapGet_mem hget)).2
    subst hshort
    exact ⟨⟨some pv.entries⟩, rfl, hinv, fun h => Option.noConfusion h⟩
  | none =>
    refine ⟨⟨some (mapSet pv.entries part (digestPrefix part))⟩, shortLoop_first hm part _, ?_,
      fun _ => shortLoop_first hm part 0⟩
    intro e he
    rcases mem_mapSet he with rfl | he
    · exact ⟨hge, rfl⟩
    · exact hinv e he

theorem Inv_step {pv pv1 : PartitionViewer} {part s : GoString} (hinv : Inv pv)
    (h : Short pv part = .returned (s, pv1)) : Inv pv1 := by
  by_cases hge : 10 ≤ part.length
  · obtain ⟨pv2, h2, hinv2, _⟩ := Short_of_Inv hinv hge
    rw [h2] at h
    simp only [Outcome.returned.injEq, Prod.mk.injEq] at h
    rw [← h.2]
    exact hinv2
  · rcases Short_returned h with ⟨_, _, rfl⟩ | ⟨hge2, _, _⟩ | ⟨hge2, _, _⟩
    · exact hinv
    · omega
    · omega

theorem Reachable_Inv {pv : PartitionViewer} (h : Reachable pv) : Inv pv := by
  induction h with
  | fresh =>
    intro e he
    simp [PartitionViewer.entries] at he
  | step _ hs ih => exact Inv_step ih hs

theorem shortAll_of_Inv :
    ∀ (parts : List GoString) {pv : PartitionViewer}, Inv pv →
      ∃ pv2, shortAll pv parts = .returned (parts.map candidate, pv2) ∧ Inv pv2 := by
  intro parts
  induction parts with
  | nil =>
    intro pv hinv
    exact ⟨pv, rfl, hinv⟩
  | cons q rest ih =>
    intro pv hinv
    have h1 : ∃ pv1, Short pv q = .returned (candidate q, pv1) ∧ Inv pv1 := by
      by_cases hlt : q.length < 10
      · exact ⟨pv, by simp [Short, candidate, hlt], hinv⟩
      · obtain ⟨pv1, h, hinv1, _⟩ := Short_of_Inv hinv (Nat.le_of_not_lt hlt)
        exact ⟨pv1, by simpa [candidate, hlt] using h, hinv1⟩
    obtain ⟨pv1, h1, hinv1⟩ := h1
    obtain ⟨pv2, h2, hinv2⟩ := ih hinv1
    exact ⟨pv2, by simp [shortAll, h1, h2], hinv2⟩

/-! ### The claims about `Short` -/

/-- C4, as stated, fails: the threshold counts bytes, not characters. The name "ééééé"
has 5 characters and 10 bytes; on a fresh viewer `Short` hashes it, returns "vvbn7pv"
and stores the entry. -/
theorem Short_five_characters_ten_bytes :
    "ééééé".length = 5 ∧ (bytes "ééééé").length = 10 ∧
    Short ⟨none⟩ (bytes "ééééé")
      = .returned (bytes "vvbn7pv", ⟨some [(bytes "ééééé", bytes "vvbn7pv")]⟩) := by
  decide!

/-- C4, amended: for every viewer state and every name shorter than 10 bytes, `Short`
returns the name itself and leaves the viewer, with its map (nil or not), exactly as it
was: nothing is hashed or stored. -/
theorem Short_below_threshold (pv : PartitionViewer) (part : GoString)
    (h : part.length < 10) : Short pv part = .returned (part, pv) := by
  simp [Short, h]

theorem Short_below_threshold_witness :
    (bytes "short").length < 10 ∧
    Short ⟨some [(bytes "partition-163425", bytes "ct4un6v")]⟩ (bytes "short")
      = .returned (bytes "short", ⟨some [(bytes "partition-163425", bytes "ct4un6v")]⟩) :=
  ⟨by decide!, Short_below_threshold _ _ (by decide!)⟩

/-- C9: on a fresh viewer (nil map) and for every name of 10 or more bytes, `Short`
returns the first 7 characters of the base-32 encoding of the 64-byte BLAKE2b digest
of the name; the result has length exactly 7, each of its characters is one of `a`-`z`
or `2`-`7`, and the viewer afterwards holds it under that name. -/
theorem Short_fresh (part : GoString) (h : 10 ≤ part.length) :
    ∃ (short : GoString) (pv1 : PartitionViewer),
      Short ⟨none⟩ part = .returned (short, pv1) ∧
      (blake2b.Sum512 part).length = 64 ∧
      short = (encoding.EncodeToString (blake2b.Sum512 part)).take 7 ∧
      short.length = 7 ∧
      (∀ c ∈ short, isLowerBase32 c = true) ∧
      pv1.shortened = some [(part, short)] ∧
      pv1.get part = some short := by
  have hinv : Inv ⟨none⟩ := Reachable_Inv Reachable.fresh
  refine ⟨digestPrefix part, ⟨some [(part, digestPrefix part)]⟩, ?_, Sum512_length part, rfl,
    (digestPrefix_spec part).1, (digestPrefix_spec part).2, rfl, ?_⟩
  · have hS : Short ⟨none⟩ part
        = shortLoop [] part (encoding.EncodeToString (blake2b.Sum512 part))
            ((encoding.EncodeToString (blake2b.Sum512 part)).length + 1) 7 := by
      unfold Short
      rw [if_neg (Nat.not_lt.mpr h)]
      rfl
    rw [hS, shortLoop_first (fun e he => by simp at he) part _]
    rfl
  · simp [PartitionViewer.get, mapGet]

theorem Short_fresh_witness :
    10 ≤ (bytes "partition-0").length ∧
    ∃ (short : GoString) (pv1 : PartitionViewer),
      Short ⟨none⟩ (bytes "partition-0") = .returned (short, pv1) ∧
      (blake2b.Sum512 (bytes "partition-0")).length = 64 ∧
      short = (encoding.EncodeToString (blake2b.Sum512 (bytes "partition-0"))).take 7 ∧
      short.length = 7 ∧
      (∀ c ∈ short, isLowerBase32 c = true) ∧
      pv1.shortened = some [(bytes "partition-0", short)] ∧
      pv1.get (bytes "partition-0") = some short :=
  ⟨by decide!, Short_fresh (bytes "partition-0") (by decide!)⟩

/-- C10: in every viewer reachable from a fresh one by calls of `Short`, every key of
the map is at least 10 bytes long; hence, for every name of 10 or more bytes, `Short`
returns (it neither panics on the slice nor loops on) exactly the first 7 characters of
the encoded digest of the name, whatever was shortened before, the encoded string being
at least 7 characters long; and when the name is not in the map yet, one iteration of
the loop is enough. -/
theorem Short_reachable (pv : PartitionViewer) (hpv : Reachable pv) :
    (∀ e ∈ pv.entries, 10 ≤ e.1.length) ∧
    ∀ part : GoString, 10 ≤ part.length →
      7 ≤ (encoding.EncodeToString (blake2b.Sum512 part)).length ∧
      ∃ pv1 : PartitionViewer,
        Short pv part
          = .returned ((encoding.EncodeToString (blake2b.Sum512 part)).take 7, pv1) ∧
        Reachable pv1 ∧
        (pv.get part = none →
          shortLoop pv.entries part (encoding.EncodeToString (blake2b.Sum512 part)) 1 7
            = .returned ((encoding.EncodeToString (blake2b.Sum512 part)).take 7, pv1)) := by
  have hinv := Reachable_Inv hpv
  refine ⟨fun e he => (hinv e he).1, fun part hge => ⟨encoded_length_ge part, ?_⟩⟩
  obtain ⟨pv1, h1, _, h3⟩ := Short_of_Inv hinv hge
  exact ⟨pv1, h1, Reachable.step hpv h1, h3⟩

theorem Short_reachable_witness :
    Reachable ⟨some [(bytes "partition-163425", bytes "ct4un6v")]⟩ ∧
    ∃ pv1 : PartitionViewer,
      Short ⟨some [(bytes "partition-163425", bytes "ct4un6v")]⟩ (bytes "partition-221588")
        = .returned ((encoding.EncodeToString
            (blake2b.Sum512 (bytes "partition-221588"))).take 7, pv1) :=
  have hr : Reachable ⟨some [(bytes "partition-163425", bytes "ct4un6v")]⟩ :=
    @Reachable.step ⟨none⟩ _ (bytes "partition-163425") (bytes "ct4un6v")
      Reachable.fresh (by decide!)
  ⟨hr, by
    obtain ⟨pv1, h1, _⟩ := ((Short_reachable _ hr).2 (bytes "partition-221588") (by decide!)).2
    exact ⟨pv1, h1⟩⟩

/-- C3: for every viewer, whatever its map holds, and every sequence of `Short` calls
on it: when the sequence runs to its end, all calls with one and the same name have
returned the same string, whichever other names were shortened before or in between,
and every entry the map held at the start is still there, with the same value, at the
end; and on a viewer reachable from a fresh one every sequence does run to its end. -/
theorem Short_same_name (pv : PartitionViewer) (parts : List GoString) :
    (Reachable pv → ∃ rs pv2, shortAll pv parts = .returned (rs, pv2)) ∧
    ∀ (rs : List GoString) (pv2 : PartitionViewer),
      shortAll pv parts = .returned (rs, pv2) →
      rs.length = parts.length ∧
      (∀ (i j : Nat) (part : GoString), parts[i]? = some part → parts[j]? = some part →
        ∃ s : GoString, rs[i]? = some s ∧ rs[j]? = some s) ∧
      (∀ k v, pv.get k = some v → pv2.get k = some v) := by
  refine ⟨fun hpv => ?_, fun rs pv2 h => shortAll_stable parts h⟩
  obtain ⟨pv2, h, _⟩ := shortAll_of_Inv parts (Reachable_Inv hpv)
  exact ⟨_, pv2, h⟩

theorem Short_same_name_witness :
    shortAll ⟨some [(bytes "a-name-held-before", bytes "anything")]⟩
        [bytes "partition-163425", bytes "short", bytes "partition-221588",
          bytes "partition-163425", bytes "a-name-held-before"]
      = .returned
        ([bytes "ct4un6v", bytes "short", bytes "ct4un6v", bytes "ct4un6v", bytes "anything"],
          ⟨some [(bytes "partition-221588", bytes "ct4un6v"),
            (bytes "partition-163425", bytes "ct4un6v"),
            (bytes "a-name-held-before", bytes "anything")]⟩) ∧
    ∃ s : GoString,
      [bytes "ct4un6v", bytes "short", bytes "ct4un6v", bytes "ct4un6v", bytes "anything"][0]?
        = some s ∧
      [bytes "ct4un6v", bytes "short", bytes "ct4un6v", bytes "ct4un6v", bytes "anything"][3]?
        = some s :=
  have h : shortAll ⟨some [(bytes "a-name-held-before", bytes "anything")]⟩
        [bytes "partition-163425", bytes "short", bytes "partition-221588",
          bytes "partition-163425", bytes "a-name-held-before"]
      = .returned
        ([bytes "ct4un6v", bytes "short", bytes "ct4un6v", bytes "ct4un6v", bytes "anything"],
          ⟨some [(bytes "partition-221588", bytes "ct4un6v"),
            (bytes "partition-163425", bytes "ct4un6v"),
            (bytes "a-name-held-before", bytes "anything")]⟩) := by decide!
  ⟨h, ((Short_same_name _ _).2 _ _ h).2.1 0 3 (bytes "partition-163425") rfl rfl⟩

/-- C1 at its failing input: "partition-163105" and "partition-227882" are distinct
names of 16 bytes whose encoded digests both begin with "52atzrx"; the name
"partition-0" is a third one. Shortened in turn on a fresh viewer, the three distinct
names are given two short names only: both colliding names get "52atzrx", because the
loop looks the candidate up among the keys of the map, the long names, and so never
extends it. -/
theorem Short_distinct_long_names_share_short :
    bytes "partition-163105" ≠ bytes "partition-227882" ∧
    10 ≤ (bytes "partition-163105").length ∧ 10 ≤ (bytes "partition-227882").length ∧
    shortAll ⟨none⟩ [bytes "partition-163105", bytes "partition-0", bytes "partition-227882"]
      = .returned ([bytes "52atzrx", bytes "2hxxh3m", bytes "52atzrx"],
          ⟨some [(bytes "partition-227882", bytes "52atzrx"),
            (bytes "partition-0", bytes "2hxxh3m"),
            (bytes "partition-163105", bytes "52atzrx")]⟩) := by
  decide!

/-- C2 at its failing input: "partition-163425" and "partition-221588" are distinct
names of 16 bytes whose encoded digests both begin with "ct4un6v". Shortened one
after the other on a fresh viewer, both are given "ct4un6v": the second result is
neither different from the first nor longer than 7 characters. The loop looks the
candidate up among the keys of the map, which are the long names, so the entry
"partition-163425" ↦ "ct4un6v" does not stop it. -/
theorem Short_colliding_prefixes :
    bytes "partition-163425" ≠ bytes "partition-221588" ∧
    10 ≤ (bytes "partition-163425").length ∧ 10 ≤ (bytes "partition-221588").length ∧
    (encoding.EncodeToString (blake2b.Sum512 (bytes "partition-163425"))).take 7
      = (encoding.EncodeToString (blake2b.Sum512 (bytes "partition-221588"))).take 7 ∧
    shortAll ⟨none⟩ [bytes "partition-163425", bytes "partition-221588"]
      = .returned ([bytes "ct4un6v", bytes "ct4un6v"],
          ⟨some [(bytes "partition-221588", bytes "ct4un6v"),
            (bytes "partition-163425", bytes "ct4un6v")]⟩) := by
  decide!

end component

/-! ## Theorems: `funcToSpec` -/

namespace plugin

theorem argsLoop_some :
    ∀ (types : List MType) (args out : List String), argsLoop types args = some out →
      out.map some = args.map some ++
        (types.filter (fun t => t ≠ MType.reflect contextType)).map typeToMessage := by
  intro types
  induction types with
  | nil =>
    intro args out h
    simp only [argsLoop, Option.some.injEq] at h
    subst h
    simp
  | cons t rest ih =>
    intro args out h
    cases t with
    | other id => simp [argsLoop] at h
    | reflect typ =>
      simp only [argsLoop] at h
      split at h
      · next hctx =>
        subst hctx
        rw [ih _ _ h, List.filter_cons_of_neg (by simp)]
      · next hctx =>
        split at h
        · exact Option.noConfusion h
        · next name hname =>
          have hkeep : decide (MType.reflect typ ≠ MType.reflect contextType) = true := by
            simpa using hctx
          rw [ih _ _ h, List.filter_cons_of_pos (p := fun t => decide (t ≠ MType.reflect contextType)) hkeep]
          simp [hname]

theorem argsLoop_total :
    ∀ (types : List MType) (args : List String),
      (∀ t ∈ types, t = MType.reflect contextType ∨ ∃ n, t = MType.reflect (RType.message n)) →
      ∃ out, argsLoop types args = some out := by
  intro types
  induction types with
  | nil =>
    intro args _
    exact ⟨args, rfl⟩
  | cons t rest ih =>
    intro args h
    have hrest : ∀ t ∈ rest, t = MType.reflect contextType ∨
        ∃ n, t = MType.reflect (RType.message n) :=
      fun t ht => h t (List.mem_cons_of_mem _ ht)
    rcases h t (List.mem_cons_self _ _) with rfl | ⟨n, rfl⟩
    · simpa [argsLoop] using ih args hrest
    · simpa [argsLoop, contextType, typeToMessage] using ih (args ++ [n]) hrest

theorem length_filter_ne_context (types : List MType) :
    (types.filter (fun t => t ≠ MType.reflect contextType)).length
      = types.length - (types.filter (fun t => t = MType.reflect contextType)).length := by
  have h := List.length_eq_length_filter_add (l := types)
    (fun t => decide (t = MType.reflect contextType))
  have h2 : (types.filter (fun t => !decide (t = MType.reflect contextType)))
      = types.filter (fun t => t ≠ MType.reflect contextType) := by
    congr 1
    funext t
    simp
  rw [h2] at h
  omega

/-- What a returned spec is made of. -/
theorem funcToSpec_spec {Fn : Type} {api : Mapper Fn} {f : Fn} {mappers : List Func}
    {spec : FuncSpec} {err : Option String}
    (h : funcToSpec api f mappers = .returned (some spec, err)) :
    err = none ∧ ∃ mf args, api.NewFunc f = .ok mf ∧
      argsLoop (api.ChainInputSet mf mappers inputCheck) [] = some args ∧
      spec.Name = mf.Name ∧ spec.Args = args ∧
      (if checkProtoMessage mf.Out = true then typeToMessage mf.Out = some spec.Result
        else ∃ chain, api.ChainTarget checkProtoMessage mappers = some chain ∧
          typeToMessage chain.Out = some spec.Result) := by
  unfold funcToSpec at h
  split at h
  · simp at h
  · next mf hnew =>
    simp only at h
    split at h
    · simp at h
    · split at h
      · simp at h
      · next args hargs =>
        split at h
        · next hout =>
          have hout : checkProtoMessage mf.Out = false := by simpa using hout
          split at h
          · simp at h
          · next chain hchain =>
            split at h
            · simp at h
            · next r hr =>
              simp only [Outcome.returned.injEq, Prod.mk.injEq, Option.some.injEq] at h
              obtain ⟨rfl, rfl⟩ := h
              refine ⟨rfl, mf, args, hnew, hargs, rfl, rfl, ?_⟩
              simp only [hout, Bool.false_eq_true, if_false]
              exact ⟨chain, hchain, hr⟩
        · next hout =>
          have hout : checkProtoMessage mf.Out = true := by simpa using hout
          split at h
          · simp at h
          · next r hr =>
            simp only [Outcome.returned.injEq, Prod.mk.injEq, Option.some.injEq] at h
            obtain ⟨rfl, rfl⟩ := h
            refine ⟨rfl, mf, args, hnew, hargs, rfl, rfl, ?_⟩
            simp only [hout, if_true]
            exact hr

theorem resolveAll_of_acceptable (pool : List Func) (acceptable : MType → Bool) :
    ∀ (ts : List MType), (∀ t ∈ ts, acceptable t = true) →
      resolveAll pool acceptable ts = some ts := by
  intro ts
  induction ts with
  | nil => intro _; rfl
  | cons t ts ih =>
    intro h
    have ht : acceptable t = true := h t (List.mem_cons_self _ _)
    have hts := ih (fun u hu => h u (List.mem_cons_of_mem _ hu))
    simp [resolveAll, resolveInput, List.find?, ht, hts]

/-- The resolver of the spec hands back the parameter types of a function all of
whose parameter types are acceptable as they are, whatever the pool. -/
theorem ChainInputSet_of_acceptable (g : Func) (ms : List Func) (chk : MType → Bool)
    (h : ∀ t ∈ g.Args, chk t = true) : ChainInputSet g ms chk = g.Args := by
  simp [ChainInputSet, resolveAll_of_acceptable ms chk g.Args h]

/-! ### The claims about `funcToSpec` -/

/-- C5: whenever `funcToSpec` succeeds (returns a spec and a nil error), the `Args` of
the spec are exactly the message names of the entries other than the context type of
the list that `ChainInputSet` returned, in the same order; the context type has no
message name; and `len(Args)` is the number of entries of that list less the number of
its context entries. -/
theorem funcToSpec_Args {Fn : Type} (api : Mapper Fn) (f : Fn) (mappers : List Func)
    (spec : FuncSpec) (h : funcToSpec api f mappers = .returned (some spec, none)) :
    ∃ mf, api.NewFunc f = .ok mf ∧
      spec.Args.map some
        = ((api.ChainInputSet mf mappers inputCheck).filter
            (fun t => t ≠ MType.reflect contextType)).map typeToMessage ∧
      typeToMessage (MType.reflect contextType) = none ∧
      spec.Args.length
        = (api.ChainInputSet mf mappers inputCheck).length
          - ((api.ChainInputSet mf mappers inputCheck).filter
              (fun t => t = MType.reflect contextType)).length := by
  obtain ⟨_, mf, args, hnew, hargs, _, hsa, _⟩ := funcToSpec_spec h
  have hmap := argsLoop_some _ _ _ hargs
  rw [← hsa] at hmap
  simp only [List.map_nil, List.nil_append] at hmap
  refine ⟨mf, hnew, hmap, rfl, ?_⟩
  have hlen := congrArg List.length hmap
  simp only [List.length_map] at hlen
  rw [hlen, length_filter_ne_context]

theorem funcToSpec_Args_witness :
    funcToSpec (specMapper (fun _ _ => none))
        ⟨"up", [.reflect .context, .reflect (.message "Image"), .reflect .context,
          .reflect (.message "Job")], .reflect (.message "Deployment")⟩ []
      = .returned (some ⟨"up", ["Image", "Job"], "Deployment"⟩, none) ∧
    ["Image", "Job"].length = 4 - 2 :=
  have h : funcToSpec (specMapper (fun _ _ => none))
        ⟨"up", [.reflect .context, .reflect (.message "Image"), .reflect .context,
          .reflect (.message "Job")], .reflect (.message "Deployment")⟩ []
      = .returned (some ⟨"up", ["Image", "Job"], "Deployment"⟩, none) := by decide!
  ⟨h, by
    obtain ⟨mf, hnew, _, _, hlen⟩ := funcToSpec_Args _ _ _ _ h
    cases hnew
    exact hlen⟩

/-- C6, as stated, fails: for a function without parameters that returns a message
type, input resolution yields no type at all, and `funcToSpec` returns no spec but the
error of its guard `len(types) == 0`. -/
theorem funcToSpec_no_parameters :
    funcToSpec (specMapper (fun _ _ => none)) ⟨"f", [], .reflect (.message "Empty")⟩ []
      = .returned (none, some ("cannot satisfy the function f. The function takes " ++
          "arguments that are not proto.Messages or have no mappers to convert to " ++
          "proto.Messages")) := by
  decide!

/-- C6, amended: for every function with at least one parameter, each parameter type
being the context type or a message type (a type that is no interface and implements
`proto.Message`), and with such a message type as return type,
`funcToSpec` returns a spec and no error, the same for every pool, with the function's
name, the return type's message name as `Result`, and as `Args` the message names of
the parameters other than the context, so that `len(Args)` is the parameter count less
the number of context parameters. Input resolution is taken to hand back parameter
types that are acceptable as they are (section 4.1 of the spec). -/
theorem funcToSpec_wire_only {Fn : Type} (api : Mapper Fn) (f : Fn) (mf : Func)
    (name : String) (hnew : api.NewFunc f = .ok mf)
    (hident : ∀ (g : Func) (ms : List Func) (chk : MType → Bool),
      (∀ t ∈ g.Args, chk t = true) → api.ChainInputSet g ms chk = g.Args)
    (hpos : mf.Args ≠ [])
    (hargs : ∀ t ∈ mf.Args, t = MType.reflect contextType ∨
      ∃ n, t = MType.reflect (RType.message n))
    (hout : mf.Out = MType.reflect (RType.message name)) :
    ∃ args : List String,
      (∀ mappers, funcToSpec api f mappers = .returned (some ⟨mf.Name, args, name⟩, none)) ∧
      args.map some
        = (mf.Args.filter (fun t => t ≠ MType.reflect contextType)).map typeToMessage ∧
      args.length
        = mf.Args.length - (mf.Args.filter (fun t => t = MType.reflect contextType)).length := by
  have hchk : ∀ t ∈ mf.Args, inputCheck t = true := by
    intro t ht
    rcases hargs t ht with rfl | ⟨n, rfl⟩ <;> rfl
  have htypes : ∀ mappers, api.ChainInputSet mf mappers inputCheck = mf.Args :=
    fun mappers => hident mf mappers inputCheck hchk
  obtain ⟨args, hloop⟩ := argsLoop_total mf.Args [] hargs
  have hmap := argsLoop_some _ _ _ hloop
  simp only [List.map_nil, List.nil_append] at hmap
  have hlen0 : mf.Args.length ≠ 0 := fun h0 => hpos (List.length_eq_zero.mp h0)
  refine ⟨args, ?_, hmap, ?_⟩
  · intro mappers
    simp [funcToSpec, hnew, htypes mappers, hlen0, hloop, hout, checkProtoMessage,
      RType.Implements, protoMessageType, typeToMessage]
  · have hlen := congrArg List.length hmap
    simp only [List.length_map] at hlen
    rw [hlen, length_filter_ne_context]

theorem funcToSpec_wire_only_witness :
    ∃ args : List String,
      (∀ mappers, funcToSpec (specMapper (fun _ _ => none))
          ⟨"up", [.reflect .context, .reflect (.message "Image")],
            .reflect (.message "Deployment")⟩ mappers
        = .returned (some ⟨"up", args, "Deployment"⟩, none)) ∧
      args.length = 2 - 1 := by
  obtain ⟨args, h, _, hlen⟩ := funcToSpec_wire_only (specMapper (fun _ _ => none))
    ⟨"up", [.reflect .context, .reflect (.message "Image")], .reflect (.message "Deployment")⟩
    ⟨"up", [.reflect .context, .reflect (.message "Image")], .reflect (.message "Deployment")⟩
    "Deployment" rfl (fun g ms chk hg => ChainInputSet_of_acceptable g ms chk hg)
    (by simp) (by simp [contextType]) rfl
  exact ⟨args, h, hlen⟩

/-- C7 at its failing input: the pool holds one converter, from the type `native 1` to
the message type "Artifact". `funcToSpec` calls `ChainTarget` with the check function
and the pool only, so whatever `ChainTarget` does, a function returning `native 2`,
which no converter of the pool accepts, gets exactly the verdict of a function
returning `native 1`: when `ChainTarget` finds no chain, the function returning
`native 1` is refused although the pool converts its output to a message; when
`ChainTarget` finds the chain to "Artifact", the function returning `native 2` is given
the `Result` "Artifact" although nothing converts its output. -/
theorem funcToSpec_output_not_searched
    (chainTarget : (MType → Bool) → List Func → Option Chain) :
    funcToSpec (specMapper chainTarget) ⟨"build", [.reflect .context], .reflect (.native 2)⟩
        [⟨"conv", [.reflect (.native 1)], .reflect (.message "Artifact")⟩]
      = funcToSpec (specMapper chainTarget) ⟨"build", [.reflect .context], .reflect (.native 1)⟩
        [⟨"conv", [.reflect (.native 1)], .reflect (.message "Artifact")⟩] ∧
    (chainTarget checkProtoMessage [⟨"conv", [.reflect (.native 1)], .reflect (.message "Artifact")⟩]
        = none →
      funcToSpec (specMapper chainTarget) ⟨"build", [.reflect .context], .reflect (.native 1)⟩
          [⟨"conv", [.reflect (.native 1)], .reflect (.message "Artifact")⟩]
        = .returned (none, some ("function must output a type that is a proto.Message or has " ++
            "a chain of mappers that result in a proto.Message"))) ∧
    (∀ chain : Chain,
      chainTarget checkProtoMessage [⟨"conv", [.reflect (.native 1)], .reflect (.message "Artifact")⟩]
        = some chain →
      chain.Out = .reflect (.message "Artifact") →
      funcToSpec (specMapper chainTarget) ⟨"build", [.reflect .context], .reflect (.native 2)⟩
          [⟨"conv", [.reflect (.native 1)], .reflect (.message "Artifact")⟩]
        = .returned (some ⟨"build", [], "Artifact"⟩, none)) := by
  refine ⟨rfl, fun h => ?_, fun chain h hout => ?_⟩
  · have hS : funcToSpec (specMapper chainTarget)
          ⟨"build", [.reflect .context], .reflect (.native 1)⟩
          [⟨"conv", [.reflect (.native 1)], .reflect (.message "Artifact")⟩]
        = (match chainTarget checkProtoMessage
              [⟨"conv", [.reflect (.native 1)], .reflect (.message "Artifact")⟩] with
          | none => Outcome.returned (none, some ("function must output a type that is a " ++
              "proto.Message or has a chain of mappers that result in a proto.Message"))
          | some chain =>
            match typeToMessage chain.Out with
            | none => Outcome.panicked
            | some r => Outcome.returned (some ⟨"build", [], r⟩, none)) := rfl
    rw [hS, h]
    decide!
  · have hS : funcToSpec (specMapper chainTarget)
          ⟨"build", [.reflect .context], .reflect (.native 2)⟩
          [⟨"conv", [.reflect (.native 1)], .reflect (.message "Artifact")⟩]
        = (match chainTarget checkProtoMessage
              [⟨"conv", [.reflect (.native 1)], .reflect (.message "Artifact")⟩] with
          | none => Outcome.returned (none, some ("function must output a type that is a " ++
              "proto.Message or has a chain of mappers that result in a proto.Message"))
          | some chain =>
            match typeToMessage chain.Out with
            | none => Outcome.panicked
            | some r => Outcome.returned (some ⟨"build", [], r⟩, none)) := rfl
    rw [hS, h]
    simp only [hout, typeToMessage]

/-- Every outcome of `funcToSpec` is a spec with a nil error, a nil spec with an
error, or a panic of a type assertion; it is the error that names the function when
input resolution yields no type, whatever the output type; and it is no panic when the
types that reach `typeToMessage` are message types. -/
theorem funcToSpec_outcomes {Fn : Type} (api : Mapper Fn) (f : Fn) (mappers : List Func) :
    (funcToSpec api f mappers = .panicked ∨
      (∃ spec, funcToSpec api f mappers = .returned (some spec, none)) ∨
      (∃ err, funcToSpec api f mappers = .returned (none, some err))) ∧
    (∀ mf, api.NewFunc f = .ok mf → api.ChainInputSet mf mappers inputCheck = [] →
      funcToSpec api f mappers
        = .returned (none, some ("cannot satisfy the function " ++ api.String mf ++
            ". The function takes arguments that " ++
            "are not proto.Messages or have no mappers to convert to proto.Messages")) ∧
      (api.String mf).data <:+:
        ("cannot satisfy the function " ++ api.String mf ++
            ". The function takes arguments that " ++
            "are not proto.Messages or have no mappers to convert to proto.Messages").data) ∧
    (∀ mf, api.NewFunc f = .ok mf →
      (∀ t ∈ api.ChainInputSet mf mappers inputCheck, t = MType.reflect contextType ∨
        ∃ n, t = MType.reflect (RType.message n)) →
      (checkProtoMessage mf.Out = true → ∃ n, mf.Out = MType.reflect (RType.message n)) →
      (∀ chain, api.ChainTarget checkProtoMessage mappers = some chain →
        ∃ n, chain.Out = MType.reflect (RType.message n)) →
      funcToSpec api f mappers ≠ .panicked) := by
  refine ⟨?_, ?_, ?_⟩
  · unfold funcToSpec
    split
    · exact Or.inr (Or.inr ⟨_, rfl⟩)
    · simp only
      split
      · exact Or.inr (Or.inr ⟨_, rfl⟩)
      · split
        · exact Or.inl rfl
        · split
          · split
            · exact Or.inr (Or.inr ⟨_, rfl⟩)
            · split
              · exact Or.inl rfl
              · exact Or.inr (Or.inl ⟨_, rfl⟩)
          · split
            · exact Or.inl rfl
            · exact Or.inr (Or.inl ⟨_, rfl⟩)
  · intro mf hnew hempty
    refine ⟨by simp [funcToSpec, hnew, hempty], ?_⟩
    refine ⟨"cannot satisfy the function ".data, (". The function takes arguments that " ++
      "are not proto.Messages or have no mappers to convert to proto.Messages").data, ?_⟩
    simp [String.data_append]
  · intro mf hnew htypes hout hchain
    obtain ⟨args, hloop⟩ := argsLoop_total _ [] htypes
    unfold funcToSpec
    simp only [hnew, hloop]
    split
    · simp
    · split
      · split
        · simp
        · next chain hc =>
          obtain ⟨n, hn⟩ := hchain chain hc
          simp [hn, typeToMessage]
      · next hcp =>
        obtain ⟨n, hn⟩ := hout (by simpa using hcp)
        simp [hn, typeToMessage]

/-- C8 at its failing input: a function that takes the context and returns the
interface type `proto.Message` itself passes `checkProtoMessage`, and `typeToMessage`
then asserts the nil zero value of that interface type to `proto.Message`: the call
panics, returning neither a spec nor an error. -/
theorem funcToSpec_interface_output :
    funcToSpec (specMapper (fun _ _ => none))
        ⟨"status", [.reflect .context], .reflect .protoMessage⟩ []
      = .panicked := by
  decide!

/-- An interface type that embeds `proto.Message` passes the input check like a
message type, and `typeToMessage` panics on its nil zero value. -/
theorem funcToSpec_embedding_interface :
    inputCheck (.reflect (.messageInterface 0)) = true ∧
    funcToSpec (specMapper (fun _ _ => none))
        ⟨"push", [.reflect (.messageInterface 0)], .reflect (.message "Empty")⟩ []
      = .panicked := by
  decide!

end plugin
